import Mathlib

/-!
Verification of the thread writer core (`writer.py`) of
`autoTweetThreadWriter`.

Python strings are embedded as `List Char`; the functions
`_summarize_text`, `_chunk_text` and `generate_thread` are embedded as
`summarizeText`, `chunkText` and `generateThread`.  The two external
collaborators (the HTTP content fetch and the OpenAI call) are passed in
as explicit outcome parameters, so the embedded `generateThread` is a
pure function of the request and of those outcomes.
-/

namespace AutoTweet

/-- The ASCII whitespace characters recognised by Python's `str.strip()`
and `str.split()` (space, tab, newline, vertical tab, form feed,
carriage return). -/
def isSpaceChar (c : Char) : Bool :=
  c = ' ' || c = '\t' || c = '\n' || c = Char.ofNat 11 || c = Char.ofNat 12 || c = '\r'

/-- Python `s.strip()`: remove leading and trailing whitespace. -/
def strip (s : List Char) : List Char :=
  ((s.dropWhile isSpaceChar).reverse.dropWhile isSpaceChar).reverse

/-- Python `s.split('. ')`: split on the literal two-character delimiter
`". "`, scanning left to right, non-overlapping occurrences.  Always
returns at least one (possibly empty) fragment. -/
def splitDotSpace : List Char → List (List Char)
  | [] => [[]]
  | '.' :: ' ' :: rest => [] :: splitDotSpace rest
  | c :: rest =>
    match splitDotSpace rest with
    | [] => [[c]]
    | h :: t => (c :: h) :: t

/-- Helper for `splitWs`: accumulates the current word (reversed). -/
def splitWsAux : List Char → List Char → List (List Char)
  | [], acc => if acc = [] then [] else [acc.reverse]
  | c :: rest, acc =>
    if isSpaceChar c then
      if acc = [] then splitWsAux rest []
      else acc.reverse :: splitWsAux rest []
    else splitWsAux rest (c :: acc)

/-- Python `s.split()` (no argument): split on runs of whitespace,
discarding empty tokens. -/
def splitWs (s : List Char) : List (List Char) :=
  splitWsAux s []

/-- The tentative segment of the greedy loop: join `current` and the
fragment with `". "`, or just the fragment when `current` is empty
(lines 70-73 of `writer.py`). -/
def tentativeJoin (cur seg : List Char) : List Char :=
  if cur ≠ [] then cur ++ '.' :: ' ' :: seg else seg

/-- One iteration of the greedy bin-packing loop of `_chunk_text`
(lines 66-79 of `writer.py`).  The state is the pair
`(parts, current)`: a fragment that strips to nothing is skipped;
otherwise, when the tentative join would overflow the soft limit the
(possibly empty) `current` is closed out as a part, else it grows. -/
def greedyStep (st : List (List Char) × List Char) (sent : List Char) :
    List (List Char) × List Char :=
  if strip sent = [] then st
  else if 260 < (tentativeJoin st.2 (strip sent)).length + 15 then
    (st.1 ++ [st.2], strip sent)
  else (st.1, tentativeJoin st.2 (strip sent))

/-- The greedy packing phase of `_chunk_text`: fold the fragments of
`s.split('. ')` through `greedyStep`, then append the trailing
`current` when it is non-empty (lines 62-81 of `writer.py`). -/
def greedyParts (s : List Char) : List (List Char) :=
  let st := (splitDotSpace s).foldl greedyStep ([], [])
  if st.2 ≠ [] then st.1 ++ [st.2] else st.1

/-- Index (and length) of the first longest part: Python
`max(range(len(parts)), key=lambda i: len(parts[i]))`, whose ties go to
the lowest index. -/
def bestSplitIdx : List (List Char) → Nat × Nat
  | [] => (0, 0)
  | [x] => (0, x.length)
  | x :: y :: rest =>
    let r := bestSplitIdx (y :: rest)
    if x.length < r.2 then (r.1 + 1, r.2) else (0, x.length)

/-- One iteration of the `while len(parts) < n_parts` loop of
`_chunk_text`: pop the first longest part, split it at its character
midpoint, strip both halves and re-insert them in place. -/
def doSplit (parts : List (List Char)) : List (List Char) :=
  let idx := (bestSplitIdx parts).1
  let part := parts.getD idx []
  let half := part.length / 2
  parts.take idx ++ [strip (part.take half), strip (part.drop half)] ++ parts.drop (idx + 1)

/-- Index (and combined length) of the first adjacent pair with the
smallest combined length: Python
`min(range(len(parts)-1), key=lambda i: len(parts[i]) + len(parts[i+1]))`,
whose ties go to the lowest index. -/
def bestMergeIdx : List (List Char) → Nat × Nat
  | [] => (0, 0)
  | [_] => (0, 0)
  | [x, y] => (0, x.length + y.length)
  | x :: y :: z :: rest =>
    let r := bestMergeIdx (y :: z :: rest)
    if r.2 < x.length + y.length then (r.1 + 1, r.2) else (0, x.length + y.length)

/-- One iteration of the `while len(parts) > n_parts` loop of
`_chunk_text`: when fewer than two parts remain the loop breaks
(identity here); otherwise the first cheapest adjacent pair is joined
with a single space, stripped, and replaces the pair in place. -/
def doMerge (parts : List (List Char)) : List (List Char) :=
  if parts.length < 2 then parts
  else
    let idx := (bestMergeIdx parts).1
    let a := parts.getD idx []
    let b := parts.getD (idx + 1) []
    parts.take idx ++ [strip (a ++ ' ' :: b)] ++ parts.drop (idx + 2)

/-- Embedding of `_chunk_text(summary, n_parts)` (lines 51-99 of
`writer.py`).  The two `while` loops run a number of iterations fixed in
advance by the length bookkeeping: each split adds exactly one part and
each merge removes exactly one (or is the identity once fewer than two
parts remain, exactly when Python's loop breaks). -/
def chunkText (summary : List Char) (nParts : Nat) : List (List Char) :=
  let s := strip summary
  if s = [] then List.replicate nParts []
  else
    let parts := greedyParts s
    let parts2 := doSplit^[nParts - parts.length] parts
    let parts3 := doMerge^[parts2.length - nParts] parts2
    parts3.take nParts

/-- Embedding of `_summarize_text(text, openai_api_key, target_words)`
(lines 19-48 of `writer.py`).  `externalOutcome` is the outcome of the
OpenAI call: `some resp` when the call succeeds with message content
`resp`, `none` when it raises (the exception is swallowed and the naive
fallback is used).  Python's `if openai_api_key:` truthiness makes both
`None` and the empty string skip the external branch. -/
def summarizeText (text : List Char) (apiKey : Option (List Char))
    (externalOutcome : Option (List Char)) (targetWords : Nat) : List Char :=
  let words := splitWs text
  if words = [] then []
  else if apiKey.getD [] ≠ [] then
    match externalOutcome with
    | some resp => strip resp
    | none => List.intercalate [' '] (words.take targetWords)
  else List.intercalate [' '] (words.take targetWords)

/-- The fixed ten-entry marker palette of `generate_thread` (line 135 of
`writer.py`), with each marker given by the exact character sequence
stored in the source file. -/
def emojiPalette : List (List Char) :=
  [ [Char.ofNat 0x011F, Char.ofNat 0x0178, Char.ofNat 0x0161, Char.ofNat 0x20AC]
  , [Char.ofNat 0x011F, Char.ofNat 0x0178, Char.ofNat 0x2019, Char.ofNat 0x00A1]
  , [Char.ofNat 0x011F, Char.ofNat 0x0178, Char.ofNat 0x201C, Char.ofNat 0x0152]
  , [Char.ofNat 0x011F, Char.ofNat 0x0178, Char.ofNat 0x201D]
  , [Char.ofNat 0x011F, Char.ofNat 0x0178, Char.ofNat 0x201D, Char.ofNat 0x00A5]
  , [Char.ofNat 0x011F, Char.ofNat 0x0178, Char.ofNat 0x201C, Char.ofNat 0x02DC]
  , [Char.ofNat 0x00E2, Char.ofNat 0x0153, Char.ofNat 0x2026]
  , [Char.ofNat 0x011F, Char.ofNat 0x0178, Char.ofNat 0x0152, Char.ofNat 0x0178]
  , [Char.ofNat 0x011F, Char.ofNat 0x0178, Char.ofNat 0x00AF]
  , [Char.ofNat 0x011F, Char.ofNat 0x0178, Char.ofNat 0x00A7, Char.ofNat 0x00A0] ]

/-- The fixed invitational suffix appended to the trimmed title in the
hook of the first tweet (line 143 of `writer.py`), with the exact
character sequence stored in the source file. -/
def hookSuffix : List Char :=
  [' ', Char.ofNat 0x00E2, Char.ofNat 0x20AC, Char.ofNat 0x201C, ' ',
   'h', 'e', 'r', 'e', Char.ofNat 0x00E2, Char.ofNat 0x20AC, Char.ofNat 0x2122, 's',
   ' ', 'w', 'h', 'a', 't', ' ', 'y', 'o', 'u',
   Char.ofNat 0x00E2, Char.ofNat 0x20AC, Char.ofNat 0x2122, 'l', 'l',
   ' ', 'l', 'e', 'a', 'r', 'n', ':']

/-- Decimal rendering of a natural number, as Python `str(i)`. -/
def natChars (n : Nat) : List Char :=
  (Nat.repr n).toList

/-- One tweet of the formatting loop of `generate_thread` (lines
138-149 of `writer.py`), for the 1-indexed position `i`. -/
def formatTweet (title : List Char) (maxTweets : Nat) (i : Nat) (part : List Char) :
    List Char :=
  let emoji := emojiPalette.getD ((i - 1) % emojiPalette.length) []
  let header := emoji ++ [' '] ++ natChars i ++ ['/'] ++ natChars maxTweets ++ [' ']
  if i = 1 then header ++ (strip title ++ hookSuffix) ++ ['\n'] ++ strip part
  else header ++ strip part

/-- The formatting loop of `generate_thread`, carrying the running
1-indexed counter of `enumerate(parts, start=1)`. -/
def formatFrom (title : List Char) (maxTweets : Nat) : Nat → List (List Char) → List (List Char)
  | _, [] => []
  | i, p :: rest => formatTweet title maxTweets i p :: formatFrom title maxTweets (i + 1) rest

/-- The formatter of `generate_thread`: one message per part, numbered
from 1. -/
def formatThread (parts : List (List Char)) (title : List Char) (maxTweets : Nat) :
    List (List Char) :=
  formatFrom title maxTweets 1 parts

/-- The triple returned by `fetch_content(url)`. -/
structure RawContent where
  title : List Char
  description : List Char
  content : List Char

/-- The two error conditions `generate_thread` can surface: the
`ValueError` raised for an out-of-range `max_tweets`, and any exception
propagated from the content fetch. -/
inductive GenError where
  | invalidArgument
  | fetchError
deriving DecidableEq

/-- Python `a or b` on strings: the first operand when truthy
(non-empty), else the second. -/
def orStr (a b : List Char) : List Char :=
  if a = [] then b else a

/-- Embedding of `generate_thread(url, openai_api_key, title, max_tweets)`
(lines 102-150 of `writer.py`).  The outcome of the network fetch is the
explicit parameter `fetched` (an exception from `fetch_content`
propagates as `fetchError`), and the outcome of the optional OpenAI call
is `externalOutcome`, as in `summarizeText`.  The `max_tweets` range
check happens before the fetch outcome is even examined. -/
def generateThread (url : List Char) (apiKey : Option (List Char))
    (titleOverride : Option (List Char)) (maxTweets : Int)
    (fetched : Except Unit RawContent) (externalOutcome : Option (List Char)) :
    Except GenError (List (List Char)) :=
  if maxTweets < 3 ∨ 20 < maxTweets then .error .invalidArgument
  else
    match fetched with
    | .error _ => .error .fetchError
    | .ok rc =>
      let chosenTitle := orStr (titleOverride.getD []) (orStr rc.title url)
      let baseText := orStr rc.content rc.description
      let summary := summarizeText baseText apiKey externalOutcome 300
      let parts := chunkText summary maxTweets.toNat
      .ok (formatThread parts chosenTitle maxTweets.toNat)

/-! ### Lemmas about `strip` -/

lemma dropWhile_head_false {p : Char → Bool} :
    ∀ {l : List Char} {c : Char} {t : List Char},
      List.dropWhile p l = c :: t → p c = false := by
  intro l
  induction l with
  | nil => intro c t h; simp at h
  | cons a l ih =>
    intro c t h
    rw [List.dropWhile_cons] at h
    by_cases hpa : p a = true
    · rw [if_pos hpa] at h
      exact ih h
    · rw [if_neg hpa] at h
      obtain ⟨hc, _⟩ := List.cons.inj h
      subst hc
      simpa using hpa

lemma dropWhile_getLast? {p : Char → Bool} :
    ∀ {l : List Char}, List.dropWhile p l ≠ [] →
      (List.dropWhile p l).getLast? = l.getLast? := by
  intro l
  induction l with
  | nil => intro h; simp at h
  | cons a t ih =>
    intro h
    rw [List.dropWhile_cons] at h ⊢
    by_cases hpa : p a = true
    · rw [if_pos hpa] at h ⊢
      rw [ih h]
      have ht : t ≠ [] := by
        intro he
        rw [he] at h
        simp at h
      cases t with
      | nil => exact absurd rfl ht
      | cons b u => rw [List.getLast?_cons_cons]
    · rw [if_neg hpa]

lemma getLast?_strip {l : List Char} {c : Char}
    (h : (strip l).getLast? = some c) : isSpaceChar c = false := by
  unfold strip at h
  rw [List.getLast?_reverse] at h
  cases hx : List.dropWhile isSpaceChar (List.dropWhile isSpaceChar l).reverse with
  | nil => rw [hx] at h; simp at h
  | cons x xs =>
    rw [hx] at h
    simp only [List.head?_cons, Option.some.injEq] at h
    subst h
    exact dropWhile_head_false hx

lemma head?_strip {l : List Char} {c : Char}
    (h : (strip l).head? = some c) : isSpaceChar c = false := by
  unfold strip at h
  rw [List.head?_reverse] at h
  have hne : List.dropWhile isSpaceChar (List.dropWhile isSpaceChar l).reverse ≠ [] := by
    intro he
    rw [he] at h
    simp at h
  rw [dropWhile_getLast? hne, List.getLast?_reverse] at h
  cases hx : List.dropWhile isSpaceChar l with
  | nil => rw [hx] at h; simp at h
  | cons x xs =>
    rw [hx] at h
    simp only [List.head?_cons, Option.some.injEq] at h
    subst h
    exact dropWhile_head_false hx

lemma strip_eq_self_of {l : List Char}
    (h1 : ∀ c, l.head? = some c → isSpaceChar c = false)
    (h2 : ∀ c, l.getLast? = some c → isSpaceChar c = false) :
    strip l = l := by
  have d1 : List.dropWhile isSpaceChar l = l := by
    cases l with
    | nil => rfl
    | cons a t =>
      rw [List.dropWhile_cons, if_neg]
      simp [h1 a rfl]
  unfold strip
  rw [d1]
  have d2 : List.dropWhile isSpaceChar l.reverse = l.reverse := by
    cases hr : l.reverse with
    | nil => rfl
    | cons a t =>
      rw [List.dropWhile_cons, if_neg]
      have ha : l.getLast? = some a := by
        rw [← List.head?_reverse, hr, List.head?_cons]
      simp [h2 a ha]
  rw [d2, List.reverse_reverse]

lemma strip_idem (l : List Char) : strip (strip l) = strip l :=
  strip_eq_self_of (fun _ hc => head?_strip hc) (fun _ hc => getLast?_strip hc)

lemma strip_eq_nil_iff {l : List Char} :
    strip l = [] ↔ ∀ c ∈ l, isSpaceChar c := by
  unfold strip
  rw [List.reverse_eq_nil_iff, List.dropWhile_eq_nil_iff]
  constructor
  · intro h c hc
    have hsplit := List.takeWhile_append_dropWhile (p := isSpaceChar) (l := l)
    rw [← hsplit] at hc
    rcases List.mem_append.mp hc with h1 | h2
    · exact List.mem_takeWhile_imp h1
    · exact h c (by simpa using h2)
  · intro h c hc
    rw [List.mem_reverse] at hc
    exact h c ((List.dropWhile_sublist isSpaceChar).subset hc)

lemma getLast?_of_ne_nil {l : List Char} (h : l ≠ []) :
    ∃ c, l.getLast? = some c := by
  cases hl : l.getLast? with
  | none => exact absurd (List.getLast?_eq_none_iff.mp hl) h
  | some c => exact ⟨c, rfl⟩

lemma strip_ne_nil_of_mem {l : List Char} {x : Char}
    (hx : x ∈ l) (hxs : isSpaceChar x = false) : strip l ≠ [] := by
  intro h
  rw [strip_eq_nil_iff] at h
  rw [h x hx] at hxs
  exact absurd hxs (by simp)

/-! ### Lemmas about `splitDotSpace` -/

lemma splitDotSpace_cons_eq (c : Char) (rest : List Char)
    (hne : ∀ r : List Char, c = '.' → rest = ' ' :: r → False) :
    splitDotSpace (c :: rest) =
      (match splitDotSpace rest with
       | [] => [[c]]
       | h :: t => (c :: h) :: t) := by
  rw [splitDotSpace.eq_def]
  split
  · next heq => exact absurd heq (by simp)
  · next r heq =>
    obtain ⟨hc, hr⟩ := List.cons.inj heq
    exact (hne r hc hr).elim
  · next c2 r2 _ heq =>
    obtain ⟨hc, hr⟩ := List.cons.inj heq
    subst hc; subst hr
    rfl

lemma splitDotSpace_ne_nil (l : List Char) : splitDotSpace l ≠ [] := by
  induction l using splitDotSpace.induct with
  | case1 => simp [splitDotSpace]
  | case2 rest ih => simp [splitDotSpace]
  | case3 c rest hne hnil ih => exact absurd hnil ih
  | case4 c rest hne h t heq ih =>
    rw [splitDotSpace_cons_eq c rest hne, heq]
    simp

lemma exists_nonspace_frag :
    ∀ (l : List Char) (c : Char), l.getLast? = some c → isSpaceChar c = false →
      ∃ f ∈ splitDotSpace l, strip f ≠ [] := by
  intro l
  induction l using splitDotSpace.induct with
  | case1 =>
    intro c hlast _
    simp at hlast
  | case2 rest ih =>
    intro c hlast hc
    cases rest with
    | nil =>
      rw [show ('.' :: [' ']).getLast? = some ' ' from rfl] at hlast
      obtain rfl : c = ' ' := by simpa using hlast.symm
      simp [isSpaceChar] at hc
    | cons b u =>
      rw [List.getLast?_cons_cons, List.getLast?_cons_cons] at hlast
      obtain ⟨f, hf, hfs⟩ := ih c hlast hc
      exact ⟨f, by simp [splitDotSpace, hf], hfs⟩
  | case3 c0 rest hne hnil ih =>
    exact absurd hnil (splitDotSpace_ne_nil rest)
  | case4 c0 rest hne h t heq ih =>
    intro c hlast hc
    cases rest with
    | nil =>
      obtain rfl : c = c0 := by simpa using hlast.symm
      refine ⟨[c], ?_, ?_⟩
      · rw [splitDotSpace_cons_eq c [] hne]
        simp [splitDotSpace]
      · rw [strip_eq_self_of]
        · simp
        · intro x hx
          obtain rfl : c = x := by simpa using hx
          exact hc
        · intro x hx
          obtain rfl : c = x := by simpa using hx
          exact hc
    | cons b u =>
      rw [List.getLast?_cons_cons] at hlast
      obtain ⟨f, hf, hfs⟩ := ih c hlast hc
      rw [heq] at hf
      rw [splitDotSpace_cons_eq c0 (b :: u) hne, heq]
      rcases List.mem_cons.mp hf with rfl | hft
      · refine ⟨c0 :: f, by simp, ?_⟩
        obtain ⟨x, hxmem, hxs⟩ : ∃ x ∈ f, isSpaceChar x = false := by
          by_contra hall
          push_neg at hall
          refine hfs (strip_eq_nil_iff.mpr ?_)
          intro y hy
          have := hall y hy
          simpa using this
        exact strip_ne_nil_of_mem (List.mem_cons_of_mem c0 hxmem) hxs
      · exact ⟨f, by simp [hft], hfs⟩

/-! ### Lemmas about the greedy packing phase -/

lemma strip_join_sep {a b : List Char} (ha : strip a = a) (hb : strip b = b)
    (hane : a ≠ []) (hbne : b ≠ []) :
    strip (a ++ '.' :: ' ' :: b) = a ++ '.' :: ' ' :: b := by
  apply strip_eq_self_of
  · intro c hc
    have hh : (a ++ '.' :: ' ' :: b).head? = a.head? := by
      cases a with
      | nil => exact absurd rfl hane
      | cons x t => rfl
    rw [hh] at hc
    apply head?_strip (l := a)
    rw [ha]
    exact hc
  · intro c hc
    have hg : (a ++ '.' :: ' ' :: b).getLast? = b.getLast? := by
      rw [List.getLast?_append_of_ne_nil a (show ('.' :: ' ' :: b) ≠ [] by simp),
        List.getLast?_cons_cons]
      cases b with
      | nil => exact absurd rfl hbne
      | cons y u => rw [List.getLast?_cons_cons]
    rw [hg] at hc
    apply getLast?_strip (l := b)
    rw [hb]
    exact hc

lemma tentativeJoin_ne_nil (cur seg : List Char) (hseg : seg ≠ []) :
    tentativeJoin cur seg ≠ [] := by
  unfold tentativeJoin
  by_cases h : cur ≠ []
  · rw [if_pos h]
    simp [hseg]
  · rw [if_neg h]
    exact hseg

lemma tentativeJoin_trimmed {cur seg : List Char} (hc : strip cur = cur)
    (hs : strip seg = seg) (hsne : seg ≠ []) :
    strip (tentativeJoin cur seg) = tentativeJoin cur seg := by
  unfold tentativeJoin
  by_cases h : cur ≠ []
  · rw [if_pos h]
    exact strip_join_sep hc hs h hsne
  · rw [if_neg h]
    exact hs

lemma greedyStep_skip (st : List (List Char) × List Char) {sent : List Char}
    (hs : strip sent = []) : greedyStep st sent = st := by
  unfold greedyStep
  rw [if_pos hs]

lemma greedyStep_over (st : List (List Char) × List Char) {sent : List Char}
    (hs : strip sent ≠ [])
    (hlen : 260 < (tentativeJoin st.2 (strip sent)).length + 15) :
    greedyStep st sent = (st.1 ++ [st.2], strip sent) := by
  unfold greedyStep
  rw [if_neg hs, if_pos hlen]

lemma greedyStep_grow (st : List (List Char) × List Char) {sent : List Char}
    (hs : strip sent ≠ [])
    (hlen : ¬ 260 < (tentativeJoin st.2 (strip sent)).length + 15) :
    greedyStep st sent = (st.1, tentativeJoin st.2 (strip sent)) := by
  unfold greedyStep
  rw [if_neg hs, if_neg hlen]

lemma greedyStep_ne_of_seg (st : List (List Char) × List Char) (s : List Char)
    (hs : strip s ≠ []) : (greedyStep st s).2 ≠ [] := by
  by_cases hlen : 260 < (tentativeJoin st.2 (strip s)).length + 15
  · rw [greedyStep_over st hs hlen]
    exact hs
  · rw [greedyStep_grow st hs hlen]
    exact tentativeJoin_ne_nil _ _ hs

lemma greedyStep_preserve_ne (st : List (List Char) × List Char) (s : List Char)
    (h : st.1 ≠ [] ∨ st.2 ≠ []) :
    (greedyStep st s).1 ≠ [] ∨ (greedyStep st s).2 ≠ [] := by
  by_cases hs : strip s = []
  · rw [greedyStep_skip st hs]
    exact h
  · exact Or.inr (greedyStep_ne_of_seg st s hs)

lemma foldl_greedy_ne (l : List (List Char)) :
    ∀ init : List (List Char) × List Char,
      ((∃ s ∈ l, strip s ≠ []) ∨ init.1 ≠ [] ∨ init.2 ≠ []) →
      ((l.foldl greedyStep init).1 ≠ [] ∨ (l.foldl greedyStep init).2 ≠ []) := by
  induction l with
  | nil =>
    intro init h
    rcases h with ⟨s, hs, _⟩ | h
    · simp at hs
    · exact h
  | cons a l ih =>
    intro init h
    rw [List.foldl_cons]
    apply ih
    rcases h with ⟨s, hs, hne⟩ | h
    · rcases List.mem_cons.mp hs with rfl | hmem
      · exact Or.inr (Or.inr (greedyStep_ne_of_seg init s hne))
      · exact Or.inl ⟨s, hmem, hne⟩
    · exact Or.inr (greedyStep_preserve_ne init a h)

lemma greedyParts_ne_nil (l : List Char) (h : strip l ≠ []) :
    greedyParts (strip l) ≠ [] := by
  obtain ⟨c, hc⟩ := getLast?_of_ne_nil h
  have hcs := getLast?_strip hc
  obtain ⟨f, hf, hfs⟩ := exists_nonspace_frag (strip l) c hc hcs
  unfold greedyParts
  have hst := foldl_greedy_ne (splitDotSpace (strip l)) ([], []) (Or.inl ⟨f, hf, hfs⟩)
  by_cases h2 : ((splitDotSpace (strip l)).foldl greedyStep ([], [])).2 ≠ []
  · simp [h2]
  · rcases hst with h1 | h1
    · simpa [h2] using h1
    · exact absurd h1 h2

lemma greedyStep_trimmed (st : List (List Char) × List Char) (s : List Char)
    (h1 : ∀ q ∈ st.1, strip q = q) (h2 : strip st.2 = st.2) :
    (∀ q ∈ (greedyStep st s).1, strip q = q) ∧
    strip (greedyStep st s).2 = (greedyStep st s).2 := by
  by_cases hs : strip s = []
  · rw [greedyStep_skip st hs]
    exact ⟨h1, h2⟩
  · by_cases hlen : 260 < (tentativeJoin st.2 (strip s)).length + 15
    · rw [greedyStep_over st hs hlen]
      refine ⟨?_, strip_idem s⟩
      intro q hq
      rcases List.mem_append.mp hq with hq1 | hq2
      · exact h1 q hq1
      · obtain rfl : q = st.2 := by simpa using hq2
        exact h2
    · rw [greedyStep_grow st hs hlen]
      exact ⟨h1, tentativeJoin_trimmed h2 (strip_idem s) hs⟩

lemma foldl_greedy_trimmed (l : List (List Char)) :
    ∀ init : List (List Char) × List Char,
      (∀ q ∈ init.1, strip q = q) → strip init.2 = init.2 →
      (∀ q ∈ (l.foldl greedyStep init).1, strip q = q) ∧
      strip (l.foldl greedyStep init).2 = (l.foldl greedyStep init).2 := by
  induction l with
  | nil =>
    intro init h1 h2
    exact ⟨h1, h2⟩
  | cons a l ih =>
    intro init h1 h2
    rw [List.foldl_cons]
    obtain ⟨g1, g2⟩ := greedyStep_trimmed init a h1 h2
    exact ih _ g1 g2

lemma greedyParts_trimmed (s : List Char) :
    ∀ q ∈ greedyParts s, strip q = q := by
  unfold greedyParts
  obtain ⟨g1, g2⟩ := foldl_greedy_trimmed (splitDotSpace s) ([], []) (by simp) rfl
  intro q hq
  by_cases h2 : ((splitDotSpace s).foldl greedyStep ([], [])).2 ≠ []
  · rw [if_pos h2] at hq
    rcases List.mem_append.mp hq with hq1 | hq2
    · exact g1 q hq1
    · obtain rfl : q = _ := by simpa using hq2
      exact g2
  · rw [if_neg h2] at hq
    exact g1 q hq

lemma greedyStep_bounded (st : List (List Char) × List Char) (s : List Char)
    (hseg : (strip s).length ≤ 245)
    (h1 : ∀ q ∈ st.1, q ≠ [] ∧ q.length ≤ 245) (h2 : st.2.length ≤ 245) :
    (∀ q ∈ (greedyStep st s).1, q ≠ [] ∧ q.length ≤ 245) ∧
    (greedyStep st s).2.length ≤ 245 := by
  by_cases hs : strip s = []
  · rw [greedyStep_skip st hs]
    exact ⟨h1, h2⟩
  · by_cases hlen : 260 < (tentativeJoin st.2 (strip s)).length + 15
    · rw [greedyStep_over st hs hlen]
      have hcur : st.2 ≠ [] := by
        intro hnil
        rw [hnil] at hlen
        unfold tentativeJoin at hlen
        simp at hlen
        omega
      refine ⟨?_, hseg⟩
      intro q hq
      rcases List.mem_append.mp hq with hq1 | hq2
      · exact h1 q hq1
      · obtain rfl : q = st.2 := by simpa using hq2
        exact ⟨hcur, h2⟩
    · rw [greedyStep_grow st hs hlen]
      refine ⟨h1, ?_⟩
      show (tentativeJoin st.2 (strip s)).length ≤ 245
      omega

lemma foldl_greedy_bounded (l : List (List Char)) :
    ∀ init : List (List Char) × List Char,
      (∀ s ∈ l, (strip s).length ≤ 245) →
      (∀ q ∈ init.1, q ≠ [] ∧ q.length ≤ 245) → init.2.length ≤ 245 →
      (∀ q ∈ (l.foldl greedyStep init).1, q ≠ [] ∧ q.length ≤ 245) ∧
      (l.foldl greedyStep init).2.length ≤ 245 := by
  induction l with
  | nil =>
    intro init _ h1 h2
    exact ⟨h1, h2⟩
  | cons a l ih =>
    intro init hl h1 h2
    rw [List.foldl_cons]
    obtain ⟨g1, g2⟩ := greedyStep_bounded init a (hl a (by simp)) h1 h2
    exact ih _ (fun s hs => hl s (by simp [hs])) g1 g2

lemma greedyParts_bounded (s : List Char)
    (hfrag : ∀ f ∈ splitDotSpace s, (strip f).length ≤ 245) :
    ∀ q ∈ greedyParts s, q ≠ [] ∧ q.length ≤ 245 := by
  unfold greedyParts
  obtain ⟨g1, g2⟩ := foldl_greedy_bounded (splitDotSpace s) ([], []) hfrag (by simp) (by simp)
  intro q hq
  by_cases h2 : ((splitDotSpace s).foldl greedyStep ([], [])).2 ≠ []
  · rw [if_pos h2] at hq
    rcases List.mem_append.mp hq with hq1 | hq2
    · exact g1 q hq1
    · obtain rfl : q = _ := by simpa using hq2
      exact ⟨h2, g2⟩
  · rw [if_neg h2] at hq
    exact g1 q hq

/-! ### Lemmas about the split/merge normalization -/

lemma bestSplitIdx_lt : ∀ (parts : List (List Char)), parts ≠ [] →
    (bestSplitIdx parts).1 < parts.length := by
  intro parts
  induction parts with
  | nil => intro h; exact absurd rfl h
  | cons x rest ih =>
    intro _
    cases rest with
    | nil => simp [bestSplitIdx]
    | cons y u =>
      have hr := ih (by simp)
      simp only [bestSplitIdx]
      split
      · simp only [List.length_cons] at *
        omega
      · simp

lemma bestMergeIdx_lt : ∀ (parts : List (List Char)), 2 ≤ parts.length →
    (bestMergeIdx parts).1 + 1 < parts.length := by
  intro parts
  induction parts with
  | nil => intro h; simp at h
  | cons x rest ih =>
    intro h
    cases rest with
    | nil => simp at h
    | cons y u =>
      cases u with
      | nil => simp [bestMergeIdx]
      | cons z v =>
        have hr := ih (by simp)
        simp only [bestMergeIdx]
        split
        · simp only [List.length_cons] at *
          omega
        · simp

lemma doSplit_length (parts : List (List Char)) (h : parts ≠ []) :
    (doSplit parts).length = parts.length + 1 := by
  have hidx := bestSplitIdx_lt parts h
  simp only [doSplit, List.length_append, List.length_take, List.length_drop,
    List.length_cons, List.length_nil]
  omega

lemma doMerge_length (parts : List (List Char)) (h : 2 ≤ parts.length) :
    (doMerge parts).length + 1 = parts.length := by
  have hidx := bestMergeIdx_lt parts h
  unfold doMerge
  rw [if_neg (by omega)]
  simp only [List.length_append, List.length_take, List.length_drop,
    List.length_cons, List.length_nil]
  omega

lemma doSplit_trimmed (parts : List (List Char)) (h : ∀ q ∈ parts, strip q = q) :
    ∀ q ∈ doSplit parts, strip q = q := by
  intro q hq
  simp only [doSplit] at hq
  rcases List.mem_append.mp hq with hq1 | hq2
  · rcases List.mem_append.mp hq1 with hqa | hqb
    · exact h q (List.take_subset _ _ hqa)
    · rcases List.mem_cons.mp hqb with rfl | hqc
      · exact strip_idem _
      · rcases List.mem_cons.mp hqc with rfl | hqd
        · exact strip_idem _
        · simp at hqd
  · exact h q (List.drop_subset _ _ hq2)

lemma doMerge_trimmed (parts : List (List Char)) (h : ∀ q ∈ parts, strip q = q) :
    ∀ q ∈ doMerge parts, strip q = q := by
  intro q hq
  unfold doMerge at hq
  by_cases hlt : parts.length < 2
  · rw [if_pos hlt] at hq
    exact h q hq
  · rw [if_neg hlt] at hq
    simp only at hq
    rcases List.mem_append.mp hq with hq1 | hq2
    · rcases List.mem_append.mp hq1 with hqa | hqb
      · exact h q (List.take_subset _ _ hqa)
      · rcases List.mem_cons.mp hqb with rfl | hqc
        · exact strip_idem _
        · simp at hqc
    · exact h q (List.drop_subset _ _ hq2)

lemma iterate_pres {α : Type} (f : α → α) (P : α → Prop)
    (hf : ∀ x, P x → P (f x)) : ∀ (k : Nat) (x : α), P x → P (f^[k] x) := by
  intro k
  induction k with
  | zero =>
    intro x h
    simpa using h
  | succ k ih =>
    intro x h
    rw [Function.iterate_succ_apply]
    exact ih _ (hf x h)

lemma iter_doSplit_length : ∀ (k : Nat) (parts : List (List Char)), parts ≠ [] →
    (doSplit^[k] parts).length = parts.length + k ∧ doSplit^[k] parts ≠ [] := by
  intro k
  induction k with
  | zero =>
    intro parts h
    simpa using h
  | succ k ih =>
    intro parts h
    rw [Function.iterate_succ_apply]
    have h1 := doSplit_length parts h
    have hne : doSplit parts ≠ [] := by
      intro he
      rw [he] at h1
      simp at h1
    obtain ⟨l1, l2⟩ := ih (doSplit parts) hne
    refine ⟨?_, l2⟩
    rw [l1, h1]
    omega

lemma iter_doMerge_length : ∀ (k n : Nat) (parts : List (List Char)), 1 ≤ n →
    parts.length = n + k → (doMerge^[k] parts).length = n := by
  intro k
  induction k with
  | zero =>
    intro n parts _ h
    simpa using h
  | succ k ih =>
    intro n parts hn h
    rw [Function.iterate_succ_apply]
    have h2 : 2 ≤ parts.length := by omega
    have hm := doMerge_length parts h2
    exact ih n (doMerge parts) hn (by omega)

/-! ### Lemmas about the formatter and the summarizer -/

lemma formatFrom_length (title : List Char) (m : Nat) :
    ∀ (i : Nat) (l : List (List Char)), (formatFrom title m i l).length = l.length := by
  intro i l
  induction l generalizing i with
  | nil => rfl
  | cons p rest ih => simp [formatFrom, ih]

lemma formatFrom_getD (title : List Char) (m : Nat) :
    ∀ (l : List (List Char)) (i j : Nat), j < l.length →
      (formatFrom title m i l).getD j [] = formatTweet title m (i + j) (l.getD j []) := by
  intro l
  induction l with
  | nil =>
    intro i j h
    simp at h
  | cons p rest ih =>
    intro i j h
    cases j with
    | zero => simp [formatFrom]
    | succ j =>
      rw [formatFrom]
      simp only [List.getD_cons_succ]
      rw [ih (i + 1) j (by simpa using h)]
      have e : i + 1 + j = i + (j + 1) := by omega
      rw [e]

lemma splitWsAux_all_space : ∀ (l : List Char), (∀ c ∈ l, isSpaceChar c) →
    splitWsAux l [] = [] := by
  intro l
  induction l with
  | nil => intro _; rfl
  | cons c rest ih =>
    intro h
    unfold splitWsAux
    rw [if_pos (h c (by simp)), if_pos rfl]
    exact ih (fun x hx => h x (by simp [hx]))

/-! ### Claim theorems -/

/-- Claim C1: for every n_parts in [1, 50] and every non-empty summary
string, `assemble(summary, n_parts)` (the function `_chunk_text`,
embedded as `chunkText`) returns a sequence of exactly `n_parts`
strings: the split loop adds one part per iteration until the count
reaches `n_parts`, and the merge loop removes one per iteration down to
`n_parts`. -/
theorem chunkText_length_exact (summary : List Char) (n : Nat)
    (h1 : 1 ≤ n) (h2 : n ≤ 50) (h3 : summary ≠ []) :
    (chunkText summary n).length = n := by
  unfold chunkText
  by_cases hs : strip summary = []
  · rw [if_pos hs]
    simp
  · rw [if_neg hs]
    have hg : greedyParts (strip summary) ≠ [] := greedyParts_ne_nil summary hs
    obtain ⟨l2, ne2⟩ :=
      iter_doSplit_length (n - (greedyParts (strip summary)).length)
        (greedyParts (strip summary)) hg
    have hge :
        n ≤ (doSplit^[n - (greedyParts (strip summary)).length]
          (greedyParts (strip summary))).length := by
      rw [l2]
      omega
    have l3 :=
      iter_doMerge_length
        ((doSplit^[n - (greedyParts (strip summary)).length]
            (greedyParts (strip summary))).length - n) n
        (doSplit^[n - (greedyParts (strip summary)).length]
          (greedyParts (strip summary))) h1 (by omega)
    rw [List.length_take, l3]
    omega

/-- Witness for C1 at `summary = ['a']`, `n = 1`. -/
theorem chunkText_length_exact_witness :
    1 ≤ 1 ∧ 1 ≤ 50 ∧ (['a'] : List Char) ≠ [] ∧ (chunkText ['a'] 1).length = 1 :=
  ⟨by decide, by decide, by decide,
    chunkText_length_exact ['a'] 1 (by decide) (by decide) (by decide)⟩

set_option maxRecDepth 16384 in
/-- Claim C2 as stated is false: on the 246-character single-fragment
summary `aaa...a` with `n_parts = 2`, the greedy loop closes out an
empty `current` as a part and keeps the whole oversized fragment, so
the output contains an empty segment and a segment of length 246 with
246 + 15 > 260. -/
theorem chunkText_budget_counterexample :
    ¬ ∀ q ∈ chunkText (List.replicate 246 'a') 2, q ≠ [] ∧ q.length + 15 ≤ 260 := by
  intro hall
  have h := hall [] (by decide)
  exact h.1 rfl

/-- Claim C2, amended: if every trimmed fragment of the summary (split
on `". "`) has length at most 245 and the greedy packing phase already
yields exactly `n` parts, then `assemble` returns exactly those greedy
parts, and every returned segment is non-empty and satisfies the
character budget `length + 15 ≤ 260`. -/
theorem chunkText_greedy_exact (summary : List Char) (n : Nat)
    (hfrag : ∀ f ∈ splitDotSpace (strip summary), (strip f).length ≤ 245)
    (hn : (greedyParts (strip summary)).length = n) :
    chunkText summary n = greedyParts (strip summary) ∧
    ∀ q ∈ chunkText summary n, q ≠ [] ∧ q.length + 15 ≤ 260 := by
  have hbnd := greedyParts_bounded (strip summary) hfrag
  have heq : chunkText summary n = greedyParts (strip summary) := by
    unfold chunkText
    by_cases hs : strip summary = []
    · rw [if_pos hs, hs]
      rw [hs] at hn
      have h0 : greedyParts ([] : List Char) = [] := rfl
      rw [h0] at hn ⊢
      rw [← hn]
      rfl
    · rw [if_neg hs]
      show (doMerge^[(doSplit^[n - (greedyParts (strip summary)).length]
              (greedyParts (strip summary))).length - n]
          (doSplit^[n - (greedyParts (strip summary)).length]
            (greedyParts (strip summary)))).take n = greedyParts (strip summary)
      have e1 : n - (greedyParts (strip summary)).length = 0 := by omega
      rw [e1]
      simp only [Function.iterate_zero, id_eq]
      have e2 : (greedyParts (strip summary)).length - n = 0 := by omega
      rw [e2]
      simp only [Function.iterate_zero, id_eq]
      rw [← hn, List.take_length]
  refine ⟨heq, ?_⟩
  intro q hq
  rw [heq] at hq
  obtain ⟨a, b⟩ := hbnd q hq
  exact ⟨a, by omega⟩

/-- Witness for the amended C2 at `summary = ['a']`, `n = 1`. -/
theorem chunkText_greedy_exact_witness :
    chunkText ['a'] 1 = greedyParts (strip ['a']) ∧
    ∀ q ∈ chunkText ['a'] 1, q ≠ [] ∧ q.length + 15 ≤ 260 :=
  chunkText_greedy_exact ['a'] 1 (by decide) (by decide)

/-- Claim C3: for every `n ≥ 0`, if the summary is empty or consists
only of whitespace, `assemble(summary, n)` returns exactly `n` empty
strings. -/
theorem chunkText_whitespace_replicate (summary : List Char) (n : Nat)
    (h : ∀ c ∈ summary, isSpaceChar c) :
    chunkText summary n = List.replicate n [] := by
  unfold chunkText
  rw [if_pos (strip_eq_nil_iff.mpr h)]

/-- Witness for C3 at `summary = [' ']`, `n = 2`. -/
theorem chunkText_whitespace_replicate_witness :
    (∀ c ∈ ([' '] : List Char), isSpaceChar c) ∧
    chunkText [' '] 2 = List.replicate 2 [] :=
  ⟨by decide, chunkText_whitespace_replicate [' '] 2 (by decide)⟩

set_option maxRecDepth 16384 in
/-- Claim C4: in the greedy packing loop, when the tentative join
already exceeds the soft limit while `current` is still empty, the
empty `current` is closed out as a completed part; concretely, for the
summary consisting of 246 copies of `a` (a single fragment exceeding
245 characters) and `n_parts = 2`, the returned sequence is
`["", "a"*246]` and contains an empty string. -/
theorem chunkText_emits_empty_part :
    chunkText (List.replicate 246 'a') 2 = [[], List.replicate 246 'a'] ∧
    [] ∈ chunkText (List.replicate 246 'a') 2 := by
  refine ⟨by decide, by decide⟩

/-- Claim C5: the formatter of `generate_thread` produces one message
per part; the message at 0-based index `i` (1-indexed position `i+1`)
equals the header `marker ++ " " ++ (i+1) ++ "/" ++ n_parts ++ " "`
with `marker = palette[i mod 10]` from the fixed 10-entry palette,
followed for the first message by the hook (trimmed title plus the
fixed invitational suffix), a newline and the trimmed part, and for
every later message by the trimmed part alone. -/
theorem formatThread_spec (parts : List (List Char)) (title : List Char)
    (n i : Nat) (hi : i < parts.length) :
    (formatThread parts title n).length = parts.length ∧
    emojiPalette.length = 10 ∧
    (formatThread parts title n).getD i [] =
      emojiPalette.getD (i % 10) [] ++ [' '] ++ natChars (i + 1) ++ ['/'] ++
        natChars n ++ [' '] ++
        (if i = 0 then (strip title ++ hookSuffix) ++ ['\n'] ++ strip (parts.getD i [])
         else strip (parts.getD i [])) := by
  refine ⟨formatFrom_length title n 1 parts, rfl, ?_⟩
  rw [formatThread, formatFrom_getD title n parts 1 i hi]
  unfold formatTweet
  have h10 : emojiPalette.length = 10 := rfl
  rw [h10]
  have e1 : 1 + i - 1 = i := by omega
  rw [e1]
  by_cases h0 : i = 0
  · subst h0
    rw [if_pos (by omega)]
    simp [List.append_assoc]
  · rw [if_neg (by omega)]
    have ec : 1 + i = i + 1 := by omega
    rw [ec]
    simp [List.append_assoc, h0]

/-- Witness for C5 at two parts, index 1. -/
theorem formatThread_spec_witness :
    (1 : Nat) < ([['x'], ['y']] : List (List Char)).length ∧
    ((formatThread [['x'], ['y']] [' ', 't'] 2).length =
        ([['x'], ['y']] : List (List Char)).length ∧
      emojiPalette.length = 10 ∧
      (formatThread [['x'], ['y']] [' ', 't'] 2).getD 1 [] =
        emojiPalette.getD (1 % 10) [] ++ [' '] ++ natChars (1 + 1) ++ ['/'] ++
          natChars 2 ++ [' '] ++
          (if (1 : Nat) = 0 then
            (strip [' ', 't'] ++ hookSuffix) ++ ['\n'] ++
              strip (([['x'], ['y']] : List (List Char)).getD 1 [])
           else strip (([['x'], ['y']] : List (List Char)).getD 1 []))) :=
  ⟨by decide, formatThread_spec [['x'], ['y']] [' ', 't'] 2 1 (by decide)⟩

/-- Claim C6: when the credential is absent, `summarize` returns
exactly the first `targetWords` whitespace-delimited tokens of the text
joined by single spaces (all tokens when there are fewer), whatever the
outcome of the never-attempted external call. -/
theorem summarizeText_no_key (text : List Char) (ext : Option (List Char)) (tw : Nat) :
    summarizeText text none ext tw =
      List.intercalate [' '] ((splitWs text).take tw) := by
  unfold summarizeText
  by_cases h : splitWs text = []
  · rw [if_pos h, h, List.take_nil]
    rfl
  · rw [if_neg h, if_neg (by simp)]

/-- Claim C7: `generate_thread` raises its `ValueError` if and only if
`max_tweets < 3` or `max_tweets > 20`, and it does so whatever the
outcome of the content fetch or of the summarization call (both are
quantified), i.e. the failure is decided before any fetch or
summarization is consulted. -/
theorem generateThread_invalidArgument_iff (url : List Char)
    (apiKey : Option (List Char)) (titleOverride : Option (List Char))
    (maxTweets : Int) (fetched : Except Unit RawContent)
    (ext : Option (List Char)) :
    generateThread url apiKey titleOverride maxTweets fetched ext =
      Except.error GenError.invalidArgument ↔
    (maxTweets < 3 ∨ 20 < maxTweets) := by
  unfold generateThread
  by_cases h : maxTweets < 3 ∨ 20 < maxTweets
  · rw [if_pos h]
    simp [h]
  · rw [if_neg h]
    cases fetched with
    | error e => simp [h]
    | ok rc => simp [h]

/-- Claim C8: for every summary string, `assemble(summary, 0)` returns
the empty sequence and raises no failure (the embedded function is
total). -/
theorem chunkText_zero (summary : List Char) : chunkText summary 0 = [] := by
  unfold chunkText
  by_cases h : strip summary = []
  · rw [if_pos h]
    rfl
  · rw [if_neg h]
    exact List.take_zero _

/-- Claim C9: every string in the sequence returned by `assemble` has
no leading or trailing whitespace, i.e. equals its own trimmed form:
fragments are stripped on entry to greedy packing, and both
midpoint-split halves and merged pairs are stripped. -/
theorem chunkText_all_trimmed (summary : List Char) (n : Nat) (part : List Char)
    (h : part ∈ chunkText summary n) : strip part = part := by
  unfold chunkText at h
  by_cases hs : strip summary = []
  · rw [if_pos hs] at h
    obtain rfl := List.eq_of_mem_replicate h
    rfl
  · rw [if_neg hs] at h
    have g1 := greedyParts_trimmed (strip summary)
    have g2 := iterate_pres doSplit (fun l => ∀ q ∈ l, strip q = q)
      doSplit_trimmed (n - (greedyParts (strip summary)).length)
      (greedyParts (strip summary)) g1
    have g3 := iterate_pres doMerge (fun l => ∀ q ∈ l, strip q = q)
      doMerge_trimmed
      ((doSplit^[n - (greedyParts (strip summary)).length]
          (greedyParts (strip summary))).length - n)
      (doSplit^[n - (greedyParts (strip summary)).length]
        (greedyParts (strip summary))) g2
    exact g3 part (List.take_subset _ _ h)

/-- Witness for C9 at `summary = ['a']`, `n = 1`, `part = ['a']`. -/
theorem chunkText_all_trimmed_witness :
    (['a'] : List Char) ∈ chunkText ['a'] 1 ∧ strip ['a'] = ['a'] :=
  ⟨by decide, chunkText_all_trimmed ['a'] 1 ['a'] (by decide)⟩

/-- Claim C10: if the text is empty or consists only of whitespace,
`summarize` returns the empty string for every credential and every
target word budget, independently of the external-call outcome (which
models that the external call is never attempted). -/
theorem summarizeText_whitespace_empty (text : List Char)
    (h : ∀ c ∈ text, isSpaceChar c) (apiKey : Option (List Char))
    (ext : Option (List Char)) (tw : Nat) :
    summarizeText text apiKey ext tw = [] := by
  unfold summarizeText splitWs
  rw [splitWsAux_all_space text h, if_pos rfl]

/-- Witness for C10 at `text = [' ']` with a credential and a
successful external outcome supplied. -/
theorem summarizeText_whitespace_empty_witness :
    (∀ c ∈ ([' '] : List Char), isSpaceChar c) ∧
    summarizeText [' '] (some ['k']) (some ['b']) 3 = [] :=
  ⟨by decide, summarizeText_whitespace_empty [' '] (by decide) (some ['k']) (some ['b']) 3⟩

end AutoTweet
